import Mathlib

/-!
Verification of the `tcp_mpipe` network byte-order core (`net/endian.hpp`)
and its Ethernet frame composer (`ethernet.hpp`).

The C++ code is shallowly embedded:
* machine integers of byte-width `w` are natural numbers below `256 ^ w`;
  the in-memory byte sequence of such an integer on a little-endian host
  is `toBytesLE w v`;
* the host's compile-time byte order (`__BYTE_ORDER`) is a parameter of
  type `ByteOrder`; the `#error` branch for an indeterminate byte order
  is unrepresentable since `ByteOrder` has exactly two constructors;
* the hardware buffer collaborators (`buffer.hpp` / `mpipe.hpp`, whose
  sources are not available) are modelled from the specification.
-/

namespace tcp_mpipe
namespace net

/-- The host's compile-time byte order (`__BYTE_ORDER`): either
`__LITTLE_ENDIAN` or `__BIG_ENDIAN`.  The C++ source fails to build on any
other value (`#error "Please set __BYTE_ORDER ..."`), so the embedding
gives the type exactly two constructors. -/
inductive ByteOrder where
  | little : ByteOrder
  | big : ByteOrder
deriving DecidableEq, Repr

/-- The in-memory byte sequence, least significant byte first, of a
`w`-byte unsigned machine integer holding value `v`.  On a little-endian
host this is the order the bytes appear in memory. -/
def toBytesLE : Nat → Nat → List Nat
  | 0, _ => []
  | w + 1, v => v % 256 :: toBytesLE w (v / 256)

/-- The unsigned integer whose little-endian byte sequence is `bs`. -/
def fromBytesLE : List Nat → Nat
  | [] => 0
  | b :: bs => b + 256 * fromBytesLE bs

theorem length_toBytesLE (w v : Nat) : (toBytesLE w v).length = w := by
  induction w generalizing v with
  | zero => rfl
  | succ w ih => simp [toBytesLE, ih]

theorem toBytesLE_lt (w v : Nat) : ∀ b ∈ toBytesLE w v, b < 256 := by
  induction w generalizing v with
  | zero => intro b hb; simp [toBytesLE] at hb
  | succ w ih =>
    intro b hb
    simp only [toBytesLE, List.mem_cons] at hb
    rcases hb with h | h
    · subst h; exact Nat.mod_lt _ (by norm_num)
    · exact ih _ b h

theorem fromBytesLE_toBytesLE (w v : Nat) (h : v < 256 ^ w) :
    fromBytesLE (toBytesLE w v) = v := by
  induction w generalizing v with
  | zero =>
    interval_cases v
    rfl
  | succ w ih =>
    have hdiv : v / 256 < 256 ^ w := by
      rw [Nat.div_lt_iff_lt_mul (by norm_num : 0 < 256)]
      calc v < 256 ^ (w + 1) := h
        _ = 256 ^ w * 256 := by ring
    simp only [toBytesLE, fromBytesLE, ih (v / 256) hdiv]
    exact Nat.mod_add_div v 256

theorem toBytesLE_fromBytesLE (bs : List Nat) (h : ∀ b ∈ bs, b < 256) :
    toBytesLE bs.length (fromBytesLE bs) = bs := by
  induction bs with
  | nil => rfl
  | cons b bs ih =>
    have hb : b < 256 := h b (List.mem_cons_self _ _)
    simp only [List.length_cons, toBytesLE, fromBytesLE]
    have h1 : (b + 256 * fromBytesLE bs) % 256 = b := by
      rw [Nat.add_mul_mod_self_left]
      exact Nat.mod_eq_of_lt hb
    have h2 : (b + 256 * fromBytesLE bs) / 256 = fromBytesLE bs := by
      rw [Nat.add_mul_div_left _ _ (by norm_num : 0 < 256),
        Nat.div_eq_of_lt hb, Nat.zero_add]
    rw [h1, h2, ih (fun x hx => h x (List.mem_cons_of_mem _ hx))]

theorem fromBytesLE_lt (bs : List Nat) (h : ∀ b ∈ bs, b < 256) :
    fromBytesLE bs < 256 ^ bs.length := by
  induction bs with
  | nil => simp [fromBytesLE]
  | cons b bs ih =>
    have hb : b < 256 := h b (List.mem_cons_self _ _)
    have htail := ih (fun x hx => h x (List.mem_cons_of_mem _ hx))
    simp only [fromBytesLE, List.length_cons, pow_succ]
    calc b + 256 * fromBytesLE bs
        ≤ 255 + 256 * fromBytesLE bs := by omega
      _ < 256 * (fromBytesLE bs + 1) := by ring_nf; omega
      _ ≤ 256 * 256 ^ bs.length := by
          apply Nat.mul_le_mul_left
          omega
      _ = 256 ^ bs.length * 256 := by ring

/-- Reinterpreting a `w`-byte machine integer with its byte sequence
reversed: the value whose bytes are the reverse of the bytes of `v`.
This is what a full byte swap computes. -/
def bswap (w v : Nat) : Nat :=
  fromBytesLE (toBytesLE w v).reverse

theorem bswap_bswap (w v : Nat) (h : v < 256 ^ w) : bswap w (bswap w v) = v := by
  unfold bswap
  have hlen : (toBytesLE w v).reverse.length = w := by
    rw [List.length_reverse, length_toBytesLE]
  have hlt : ∀ b ∈ (toBytesLE w v).reverse, b < 256 := by
    intro b hb
    exact toBytesLE_lt w v b (List.mem_reverse.mp hb)
  have := toBytesLE_fromBytesLE (toBytesLE w v).reverse hlt
  rw [hlen] at this
  rw [this, List.reverse_reverse, fromBytesLE_toBytesLE w v h]

theorem bswap_lt (w v : Nat) : bswap w v < 256 ^ w := by
  unfold bswap
  have := fromBytesLE_lt (toBytesLE w v).reverse
    (fun b hb => toBytesLE_lt w v b (List.mem_reverse.mp hb))
  rwa [List.length_reverse, length_toBytesLE] at this

/-- One iteration of the C++ byte-swapping loop:
`swap<uint8_t>(value_bytes[i], value_bytes[j])`. -/
def swapAt (bs : List Nat) (i j : Nat) : List Nat :=
  (bs.set i (bs.getD j 0)).set j (bs.getD i 0)

/-- The C++ loop `for (i = 0; i < sizeof(host_t) / 2; i++)
swap(value_bytes[i], value_bytes[sizeof(host_t) - 1 - i])`, unrolled from
iteration `0` up to (excluding) iteration `k`. -/
def swapPairs (bs : List Nat) : Nat → List Nat
  | 0 => bs
  | k + 1 => swapAt (swapPairs bs k) k (bs.length - 1 - k)

theorem length_swapAt (bs : List Nat) (i j : Nat) :
    (swapAt bs i j).length = bs.length := by
  simp [swapAt]

theorem length_swapPairs (bs : List Nat) (k : Nat) :
    (swapPairs bs k).length = bs.length := by
  induction k with
  | zero => rfl
  | succ k ih => simp [swapPairs, length_swapAt, ih]

theorem getElem?_swapPairs (bs : List Nat) (k : Nat) (hk : 2 * k ≤ bs.length) :
    ∀ m, (swapPairs bs k)[m]? =
      if m < k ∨ (bs.length - k ≤ m ∧ m < bs.length)
      then bs[bs.length - 1 - m]? else bs[m]? := by
  induction k with
  | zero =>
    intro m
    by_cases hm : m < bs.length
    · have : ¬ (m < 0 ∨ (bs.length - 0 ≤ m ∧ m < bs.length)) := by omega
      simp only [swapPairs, this, if_false]
    · have : ¬ (m < 0 ∨ (bs.length - 0 ≤ m ∧ m < bs.length)) := by omega
      simp only [swapPairs, this, if_false]
  | succ k ih =>
    intro m
    have hk2 : 2 * k ≤ bs.length := by omega
    have hjn : bs.length - 1 - k < bs.length := by omega
    have hkn : k < bs.length := by omega
    have hPlen : (swapPairs bs k).length = bs.length := length_swapPairs bs k
    have hPk : (swapPairs bs k)[k]? = bs[k]? := by
      rw [ih hk2 k]
      have : ¬ (k < k ∨ (bs.length - k ≤ k ∧ k < bs.length)) := by omega
      simp only [this, if_false]
    have hPj : (swapPairs bs k)[bs.length - 1 - k]? =
        bs[bs.length - 1 - k]? := by
      rw [ih hk2 (bs.length - 1 - k)]
      have : ¬ (bs.length - 1 - k < k ∨
          (bs.length - k ≤ bs.length - 1 - k ∧
            bs.length - 1 - k < bs.length)) := by
        omega
      simp only [this, if_false]
    have hDk : (swapPairs bs k).getD k 0 = (bs[k]?).getD 0 := by
      rw [List.getD_eq_getElem?_getD, hPk]
    have hDj : (swapPairs bs k).getD (bs.length - 1 - k) 0 =
        (bs[bs.length - 1 - k]?).getD 0 := by
      rw [List.getD_eq_getElem?_getD, hPj]
    show (swapAt (swapPairs bs k) k (bs.length - 1 - k))[m]? = _
    rw [swapAt, List.getElem?_set, List.getElem?_set, List.length_set,
      hPlen, hDk, hDj]
    by_cases hmj : bs.length - 1 - k = m
    · have hcond : m < k + 1 ∨ (bs.length - (k + 1) ≤ m ∧ m < bs.length) := by
        omega
      have hidx : bs.length - 1 - m = k := by omega
      rw [if_pos hmj, if_pos hjn, if_pos hcond, hidx,
        List.getElem?_eq_getElem hkn]
      rfl
    · by_cases hmk : k = m
      · have hcond : m < k + 1 ∨
            (bs.length - (k + 1) ≤ m ∧ m < bs.length) := by omega
        have hidx : bs.length - 1 - m = bs.length - 1 - k := by omega
        rw [if_neg hmj, if_pos hmk, if_pos hkn, if_pos hcond, hidx,
          List.getElem?_eq_getElem hjn]
        rfl
      · have hcond : (m < k + 1 ∨ (bs.length - (k + 1) ≤ m ∧ m < bs.length)) ↔
            (m < k ∨ (bs.length - k ≤ m ∧ m < bs.length)) := by omega
        rw [if_neg hmj, if_neg hmk, ih hk2 m]
        exact if_congr hcond.symm rfl rfl

theorem swapPairs_eq_reverse (bs : List Nat) :
    swapPairs bs (bs.length / 2) = bs.reverse := by
  apply List.ext_getElem?
  intro m
  by_cases hm : m < bs.length
  · rw [List.getElem?_reverse hm,
      getElem?_swapPairs bs (bs.length / 2) (by omega) m]
    by_cases hcond : m < bs.length / 2 ∨
        (bs.length - bs.length / 2 ≤ m ∧ m < bs.length)
    · simp only [hcond, if_true]
    · have : bs.length - 1 - m = m := by omega
      simp only [hcond, if_false, this]
  · have h1 : (swapPairs bs (bs.length / 2))[m]? = none := by
      apply List.getElem?_eq_none
      rw [length_swapPairs]
      omega
    have h2 : bs.reverse[m]? = none := by
      apply List.getElem?_eq_none
      rw [List.length_reverse]
      omega
    rw [h1, h2]

/-- The libc primitive `htons` (host-to-network for 16-bit values):
identity on a big-endian host, 16-bit byte swap on a little-endian host.
Modelled from its standard platform semantics (its source is libc, not part
of this repository). -/
def htons (e : ByteOrder) (v : Nat) : Nat :=
  match e with
  | .little => bswap 2 v
  | .big => v

/-- The libc primitive `ntohs` (network-to-host for 16-bit values),
modelled like `htons`. -/
def ntohs (e : ByteOrder) (v : Nat) : Nat :=
  match e with
  | .little => bswap 2 v
  | .big => v

/-- The libc primitive `htonl` (host-to-network for 32-bit values),
modelled like `htons` at width 4. -/
def htonl (e : ByteOrder) (v : Nat) : Nat :=
  match e with
  | .little => bswap 4 v
  | .big => v

/-- The libc primitive `ntohl` (network-to-host for 32-bit values),
modelled like `htonl`. -/
def ntohl (e : ByteOrder) (v : Nat) : Nat :=
  match e with
  | .little => bswap 4 v
  | .big => v

namespace change_endian_t

/-- `change_endian_t<host_t>::_change_endian`, the default byte-swapping
implementation of `endian.hpp`: on a little-endian host it runs the loop
`for (i = 0; i < sizeof(host_t) / 2; i++)
swap(value_bytes[i], value_bytes[sizeof(host_t) - 1 - i])` over the
in-memory bytes of the value; on a big-endian host it returns the value
unchanged.  `w` is `sizeof(host_t)` in bytes. -/
def _change_endian (e : ByteOrder) (w v : Nat) : Nat :=
  match e with
  | .little => fromBytesLE (swapPairs (toBytesLE w v) (w / 2))
  | .big => v

/-- `change_endian_t<host_t>::to_network` after template specialization:
`htons` for the two-byte width, `htonl` for the four-byte width, and the
generic `_change_endian` for every other width. -/
def to_network (w : Nat) (e : ByteOrder) (v : Nat) : Nat :=
  match w with
  | 2 => htons e v
  | 4 => htonl e v
  | w => _change_endian e w v

/-- `change_endian_t<host_t>::to_host` after template specialization:
`ntohs` for the two-byte width, `ntohl` for the four-byte width, and the
generic `_change_endian` for every other width. -/
def to_host (w : Nat) (e : ByteOrder) (v : Nat) : Nat :=
  match w with
  | 2 => ntohs e v
  | 4 => ntohl e v
  | w => _change_endian e w v

theorem _change_endian_little (w v : Nat) :
    _change_endian .little w v = bswap w v := by
  unfold _change_endian bswap
  have h : w / 2 = (toBytesLE w v).length / 2 := by
    rw [length_toBytesLE]
  rw [h, swapPairs_eq_reverse]

theorem _change_endian_big (w v : Nat) : _change_endian .big w v = v := rfl

theorem to_host_to_network (w : Nat) (e : ByteOrder) (v : Nat)
    (h : v < 256 ^ w) : to_host w e (to_network w e v) = v := by
  match w, e with
  | 2, .little => exact bswap_bswap 2 v h
  | 2, .big => rfl
  | 4, .little => exact bswap_bswap 4 v h
  | 4, .big => rfl
  | 0, .little =>
    show _change_endian .little 0 (_change_endian .little 0 v) = v
    rw [_change_endian_little, _change_endian_little]
    exact bswap_bswap 0 v h
  | 0, .big => rfl
  | 1, .little =>
    show _change_endian .little 1 (_change_endian .little 1 v) = v
    rw [_change_endian_little, _change_endian_little]
    exact bswap_bswap 1 v h
  | 1, .big => rfl
  | 3, .little =>
    show _change_endian .little 3 (_change_endian .little 3 v) = v
    rw [_change_endian_little, _change_endian_little]
    exact bswap_bswap 3 v h
  | 3, .big => rfl
  | (n + 5), .little =>
    show _change_endian .little (n + 5) (_change_endian .little (n + 5) v) = v
    rw [_change_endian_little, _change_endian_little]
    exact bswap_bswap (n + 5) v h
  | (n + 5), .big => rfl

theorem to_network_lt (w : Nat) (e : ByteOrder) (v : Nat) (h : v < 256 ^ w) :
    to_network w e v < 256 ^ w := by
  match w, e with
  | 2, .little => exact bswap_lt 2 v
  | 2, .big => exact h
  | 4, .little => exact bswap_lt 4 v
  | 4, .big => exact h
  | 0, .little =>
    rw [show to_network 0 .little v = _change_endian .little 0 v from rfl,
      _change_endian_little]
    exact bswap_lt 0 v
  | 0, .big => exact h
  | 1, .little =>
    rw [show to_network 1 .little v = _change_endian .little 1 v from rfl,
      _change_endian_little]
    exact bswap_lt 1 v
  | 1, .big => exact h
  | 3, .little =>
    rw [show to_network 3 .little v = _change_endian .little 3 v from rfl,
      _change_endian_little]
    exact bswap_lt 3 v
  | 3, .big => exact h
  | (n + 5), .little =>
    rw [show to_network (n + 5) .little v =
        _change_endian .little (n + 5) v from rfl,
      _change_endian_little]
    exact bswap_lt (n + 5) v
  | (n + 5), .big => exact h

theorem to_network_injOn (w : Nat) (e : ByteOrder) (a b : Nat)
    (ha : a < 256 ^ w) (hb : b < 256 ^ w)
    (h : to_network w e a = to_network w e b) : a = b := by
  have := congrArg (to_host w e) h
  rwa [to_host_to_network w e a ha, to_host_to_network w e b hb] at this

end change_endian_t

/-- `net_t<host_t>`: a `w`-byte unsigned value stored in network byte
order.  `e` is the host's byte order (a compile-time property of the C++
build). The single field `net` is the stored network-byte-order value. -/
structure net_t (w : Nat) (e : ByteOrder) where
  net : Nat
deriving DecidableEq, Repr

namespace net_t

/-- The constructor `net_t(host_t host)`: stores
`change_endian_t<host_t>::to_network(host)`. -/
def ofHost (w : Nat) (e : ByteOrder) (host : Nat) : net_t w e :=
  ⟨change_endian_t.to_network w e host⟩

/-- `net_t::host()`: returns `change_endian_t<host_t>::to_host(net)`. -/
def host {w : Nat} {e : ByteOrder} (a : net_t w e) : Nat :=
  change_endian_t.to_host w e a.net

/-- `net_t::from_net(_net)`: constructs from a value which is already in
network byte order, storing it without any conversion. -/
def from_net (w : Nat) (e : ByteOrder) (_net : Nat) : net_t w e :=
  ⟨_net⟩

/-- `operator==(this_t a, this_t b)`: compares the raw network-order
bits (`a.net == b.net`). -/
def eqNet {w : Nat} {e : ByteOrder} (a b : net_t w e) : Bool :=
  a.net == b.net

/-- `operator!=(this_t a, this_t b)`: `a.net != b.net`. -/
def neNet {w : Nat} {e : ByteOrder} (a b : net_t w e) : Bool :=
  a.net != b.net

/-- `operator==(this_t a, host_t b)`: converts the tagged side
(`a.host() == b`). -/
def eqHost {w : Nat} {e : ByteOrder} (a : net_t w e) (b : Nat) : Bool :=
  a.host == b

/-- `operator+(this_t a, this_t b)`:
`net_t<host_t>(a.host() + b.host())`, where `+` is the host's `w`-byte
unsigned machine addition, i.e. addition modulo `256 ^ w`. -/
def add {w : Nat} {e : ByteOrder} (a b : net_t w e) : net_t w e :=
  ofHost w e ((a.host + b.host) % 256 ^ w)

/-- `operator-(this_t a, this_t b)`:
`net_t<host_t>(a.host() - b.host())`, where `-` is the host's `w`-byte
unsigned machine subtraction (wrapping modulo `256 ^ w`). -/
def sub {w : Nat} {e : ByteOrder} (a b : net_t w e) : net_t w e :=
  ofHost w e ((a.host + (256 ^ w - b.host % 256 ^ w)) % 256 ^ w)

end net_t

/-- The `w`-byte unsigned machine addition of the host CPU: wraps
modulo `256 ^ w`. -/
def machineAdd (w a b : Nat) : Nat := (a + b) % 256 ^ w

/-- The `w`-byte unsigned machine subtraction of the host CPU: wraps
modulo `256 ^ w`. -/
def machineSub (w a b : Nat) : Nat := (a + (256 ^ w - b % 256 ^ w)) % 256 ^ w

/-- `std::hash<net_t<host_t>>::operator()`: applies the underlying
integer hash `std::hash<host_t>` to the stored `net` field, with no
byte-order conversion.  `h` is the underlying integer hash function. -/
def hashNet {w : Nat} {e : ByteOrder} (h : Nat → Nat) (value : net_t w e) :
    Nat :=
  h value.net

end net

/-- Modelled from the spec: `buffer_cursor_t` from `buffer.hpp` (source not
available).  A zero-copy write position into a hardware-owned packet
buffer: it holds the buffer's bytes (`buf`, whose length is the buffer's
capacity) and the current write offset. -/
structure buffer_cursor_t where
  buf : List Nat
  offset : Nat
deriving Repr

namespace buffer_cursor_t

/-- Modelled from the spec: `buffer_cursor_t::write_with<H>(writer)` from
`buffer.hpp` (source not available).  Reserves `size = sizeof(H)` bytes at
the current offset, invokes `writer` on that reserved region (the writer
returns the region's new contents — in the C++ it mutates the region in
place through a typed pointer), advances the offset by `size`, and returns
the advanced cursor. -/
def write_with (c : buffer_cursor_t) (size : Nat)
    (writer : List Nat → List Nat) : buffer_cursor_t :=
  { buf := c.buf.take c.offset ++ writer ((c.buf.drop c.offset).take size) ++
      c.buf.drop (c.offset + size),
    offset := c.offset + size }

/-- A sequence of chained `write_with` calls: each element of `ws` is the
reserved size paired with the writer for that call. -/
def writeSeq (c : buffer_cursor_t) (ws : List (Nat × (List Nat → List Nat))) :
    buffer_cursor_t :=
  ws.foldl (fun cur w => write_with cur w.1 w.2) c

end buffer_cursor_t

/-- `gxio_mpipe_edesc_t`, an egress descriptor, modelled from the spec
(the mPIPE headers are not part of this repository): the `bound` flag
(last and single descriptor of the frame), the `hwb` flag (buffer
automatically freed by hardware after transmission), the transfer size,
and the referenced buffer contents (set through
`gxio_mpipe_edesc_set_bdesc`). -/
structure gxio_mpipe_edesc_t where
  bound : Nat
  hwb : Nat
  xfer_size : Nat
  buf : List Nat
deriving Repr

/-- Modelled from the spec: `mpipe_env_t` from `mpipe.hpp` (source not
available).  Carries the local link address (6 bytes, the source address
of every outgoing frame), the hardware buffer allocator collaborator
(`none` models allocator exhaustion), and the egress queue, modelled as
the list of descriptors submitted so far. -/
structure mpipe_env_t where
  link_addr : List Nat
  alloc : Nat → Option (List Nat)
  equeue : List gxio_mpipe_edesc_t

/-- Modelled from the spec: `mpipe_alloc_buffer(mpipe_env, size)` from
`mpipe.hpp` (source not available) — asks the hardware allocator
collaborator for a buffer of the given size; fails (returns `none`) on
exhaustion. -/
def mpipe_alloc_buffer (env : mpipe_env_t) (size : Nat) :
    Option (List Nat) :=
  env.alloc size

/-- The in-memory byte sequence of a `uint16_t` holding value `v` on a
host of byte order `e`: least significant byte first on a little-endian
host, most significant byte first on a big-endian host. -/
def uint16MemBytes (e : net.ByteOrder) (v : Nat) : List Nat :=
  match e with
  | .little => net.toBytesLE 2 v
  | .big => (net.toBytesLE 2 v).reverse

/-- `sizeof(ether_header)`: 6 bytes destination + 6 bytes source +
2 bytes ethertype. -/
def ether_header_size : Nat := 14

/-- `BROADCAST_ETHER_ADDR`, the static const broadcast Ethernet address
`{ { 0xFF, 0xFF, 0xFF, 0xFF, 0xFF, 0xFF } }`.  A Lean `def` is immutable,
matching the C++ `static const` qualifier. -/
def BROADCAST_ETHER_ADDR : List Nat :=
  [0xFF, 0xFF, 0xFF, 0xFF, 0xFF, 0xFF]

/-- `_ethernet_write_header(mpipe_env, cursor, dst, ether_type)`: writes
the Ethernet header through `cursor.write_with<struct ether_header>`:
`memcpy` of the 6 destination-address bytes, `memcpy` of the 6
source-address bytes from `mpipe_env->link_addr`, then a raw store of the
(already network-order) `uint16_t` ethertype, whose in-memory bytes are
`uint16MemBytes e ether_type`. -/
def _ethernet_write_header (e : net.ByteOrder) (mpipe_env : mpipe_env_t)
    (cursor : buffer_cursor_t) (dst : List Nat) (ether_type : Nat) :
    buffer_cursor_t :=
  cursor.write_with ether_header_size
    (fun _ => dst.take 6 ++ mpipe_env.link_addr.take 6 ++
      uint16MemBytes e ether_type)

/-- `ethernet_send_frame(mpipe_env, payload_size, dst, ether_type,
payload_writer)`: allocates a buffer of `sizeof(ether_header) +
payload_size` bytes, writes the Ethernet header, lets the payload writer
fill the rest through the cursor, then builds an egress descriptor
(`bound = 1`, `hwb = 1`, `xfer_size = frame_size`, referencing the
buffer) and submits it to the egress queue.  An allocation failure
propagates (`none`) before anything is written or submitted. -/
def ethernet_send_frame (e : net.ByteOrder) (mpipe_env : mpipe_env_t)
    (payload_size : Nat) (dst : List Nat) (ether_type : Nat)
    (payload_writer : buffer_cursor_t → buffer_cursor_t) :
    Option mpipe_env_t :=
  let headers_size := ether_header_size
  let frame_size := headers_size + payload_size
  match mpipe_alloc_buffer mpipe_env frame_size with
  | none => none
  | some bdesc =>
    let cursor : buffer_cursor_t := ⟨bdesc, 0⟩
    let cursor := _ethernet_write_header e mpipe_env cursor dst ether_type
    let afterPayload := payload_writer cursor
    let edesc : gxio_mpipe_edesc_t :=
      { bound := 1, hwb := 1, xfer_size := frame_size,
        buf := afterPayload.buf }
    some { mpipe_env with equeue := mpipe_env.equeue ++ [edesc] }

/-- A payload writer that writes the given payload bytes through the
cursor API (one `write_with` reserving exactly the payload's length). -/
def payloadBytesWriter (payload : List Nat) (c : buffer_cursor_t) :
    buffer_cursor_t :=
  c.write_with payload.length (fun _ => payload)

end tcp_mpipe

namespace tcp_mpipe

open net

/-- C2: for every representable host-order value `v` of width `w`,
constructing an endian-tagged value from `v` and reading it back through
`host()` returns `v` (round-trip of `to_network` followed by `to_host`). -/
theorem net_t_host_roundtrip (w : Nat) (e : ByteOrder) (v : Nat)
    (h : v < 256 ^ w) : (net_t.ofHost w e v).host = v :=
  change_endian_t.to_host_to_network w e v h

/-- Witness for `net_t_host_roundtrip` at `w = 2`, little-endian host,
`v = 0x1234`. -/
theorem net_t_host_roundtrip_witness :
    0x1234 < 256 ^ 2 ∧ (net_t.ofHost 2 .little 0x1234).host = 0x1234 :=
  ⟨by decide, net_t_host_roundtrip 2 .little 0x1234 (by decide)⟩

/-- C3: for all representable host values `a` and `b`, the value-to-value
comparison `net_t(a) == net_t(b)` (raw network bits) is `true` iff
`a = b`, and the mixed comparison `net_t(a) == a` is always `true`. -/
theorem net_t_eq_consistency (w : Nat) (e : ByteOrder) (a b : Nat)
    (ha : a < 256 ^ w) (hb : b < 256 ^ w) :
    ((net_t.ofHost w e a).eqNet (net_t.ofHost w e b) = true ↔ a = b)
    ∧ (net_t.ofHost w e a).eqHost a = true := by
  constructor
  · constructor
    · intro h
      have hnet : change_endian_t.to_network w e a =
          change_endian_t.to_network w e b := by
        have := of_decide_eq_true h
        exact this
      exact change_endian_t.to_network_injOn w e a b ha hb hnet
    · intro h
      subst h
      simp [net_t.eqNet, net_t.ofHost]
  · have hhost : (net_t.ofHost w e a).host = a :=
      change_endian_t.to_host_to_network w e a ha
    simp [net_t.eqHost, hhost]

/-- Witness for `net_t_eq_consistency` at `w = 2`, little-endian host,
`a = 7`, `b = 7`. -/
theorem net_t_eq_consistency_witness :
    7 < 256 ^ 2 ∧
      (((net_t.ofHost 2 .little 7).eqNet (net_t.ofHost 2 .little 7) = true ↔
          (7 : Nat) = 7)
        ∧ (net_t.ofHost 2 .little 7).eqHost 7 = true) :=
  ⟨by decide, net_t_eq_consistency 2 .little 7 7 (by decide) (by decide)⟩

/-- C4: for all representable host values `a` and `b`,
`net_t(a) + net_t(b) = net_t(a + b)` and
`net_t(a) - net_t(b) = net_t(a - b)`, where `+`/`-` on the right are the
host's `w`-byte unsigned machine operations (wrapping modulo `256 ^ w`). -/
theorem net_t_arith_agrees_with_host (w : Nat) (e : ByteOrder) (a b : Nat)
    (ha : a < 256 ^ w) (hb : b < 256 ^ w) :
    (net_t.ofHost w e a).add (net_t.ofHost w e b) =
        net_t.ofHost w e (machineAdd w a b)
    ∧ (net_t.ofHost w e a).sub (net_t.ofHost w e b) =
        net_t.ofHost w e (machineSub w a b) := by
  have hha : (net_t.ofHost w e a).host = a :=
    change_endian_t.to_host_to_network w e a ha
  have hhb : (net_t.ofHost w e b).host = b :=
    change_endian_t.to_host_to_network w e b hb
  constructor
  · unfold net_t.add machineAdd
    rw [hha, hhb]
  · unfold net_t.sub machineSub
    rw [hha, hhb]

/-- Witness for `net_t_arith_agrees_with_host` at `w = 2`, little-endian
host, `a = 0xFFFF`, `b = 3` (exercising the wraparound). -/
theorem net_t_arith_agrees_with_host_witness :
    0xFFFF < 256 ^ 2 ∧ 3 < 256 ^ 2 ∧
      ((net_t.ofHost 2 .little 0xFFFF).add (net_t.ofHost 2 .little 3) =
          net_t.ofHost 2 .little (machineAdd 2 0xFFFF 3)
        ∧ (net_t.ofHost 2 .little 0xFFFF).sub (net_t.ofHost 2 .little 3) =
          net_t.ofHost 2 .little (machineSub 2 0xFFFF 3)) :=
  ⟨by decide, by decide,
    net_t_arith_agrees_with_host 2 .little 0xFFFF 3 (by decide) (by decide)⟩

/-- C5: the 16-bit instance of `change_endian_t` uses `htons`/`ntohs`, the
32-bit instance uses `htonl`/`ntohl`; for every other width the generic
`_change_endian` performs a full reversal of the value's byte sequence on
a little-endian host and is the identity on a big-endian host.  (The
build-failure on an indeterminate host byte order is a compile-time
property: `ByteOrder` has exactly the two constructors `little` and
`big`.) -/
theorem change_endian_dispatch :
    (∀ (e : ByteOrder) (v : Nat),
      change_endian_t.to_network 2 e v = htons e v
      ∧ change_endian_t.to_host 2 e v = ntohs e v
      ∧ change_endian_t.to_network 4 e v = htonl e v
      ∧ change_endian_t.to_host 4 e v = ntohl e v)
    ∧ (∀ w v : Nat,
      change_endian_t._change_endian .little w v =
        fromBytesLE (toBytesLE w v).reverse
      ∧ change_endian_t._change_endian .big w v = v)
    ∧ (∀ (e : ByteOrder) (w v : Nat), w ≠ 2 → w ≠ 4 →
      change_endian_t.to_network w e v = change_endian_t._change_endian e w v
      ∧ change_endian_t.to_host w e v =
        change_endian_t._change_endian e w v) := by
  refine ⟨fun e v => ⟨rfl, rfl, rfl, rfl⟩, fun w v =>
    ⟨change_endian_t._change_endian_little w v, rfl⟩, fun e w v h2 h4 => ?_⟩
  match w with
  | 0 => exact ⟨rfl, rfl⟩
  | 1 => exact ⟨rfl, rfl⟩
  | 2 => exact absurd rfl h2
  | 3 => exact ⟨rfl, rfl⟩
  | 4 => exact absurd rfl h4
  | n + 5 => exact ⟨rfl, rfl⟩

/-- Witness for `change_endian_dispatch`: the generic byte reversal at the
odd width `3` on a little-endian host. -/
theorem change_endian_dispatch_witness :
    (3 : Nat) ≠ 2 ∧ (3 : Nat) ≠ 4 ∧
      (change_endian_t.to_network 3 .little 0x012345 =
          change_endian_t._change_endian .little 3 0x012345
        ∧ change_endian_t.to_host 3 .little 0x012345 =
          change_endian_t._change_endian .little 3 0x012345) :=
  ⟨by decide, by decide,
    change_endian_dispatch.2.2 .little 3 0x012345 (by decide) (by decide)⟩

/-- C6: `from_net(n)` stores the already-network-order value `n` with no
conversion: reading back the stored `net` field yields exactly `n`. -/
theorem from_net_stores_unchanged (w : Nat) (e : ByteOrder) (n : Nat) :
    (net_t.from_net w e n).net = n :=
  rfl

/-- C9: the hash for `net_t` equals the underlying integer hash applied to
the stored network-order bits (no byte-order conversion), so any two
`net_t` values that compare equal value-to-value have equal hashes. -/
theorem hashNet_consistent_with_eq (w : Nat) (e : ByteOrder)
    (h : Nat → Nat) :
    (∀ value : net_t w e, hashNet h value = h value.net)
    ∧ (∀ a b : net_t w e, net_t.eqNet a b = true → hashNet h a = hashNet h b) := by
  refine ⟨fun value => rfl, fun a b hab => ?_⟩
  have : a.net = b.net := of_decide_eq_true hab
  unfold hashNet
  rw [this]

/-- Witness for `hashNet_consistent_with_eq` with the identity hash on two
equal-bits values. -/
theorem hashNet_consistent_with_eq_witness :
    net_t.eqNet (net_t.from_net 2 .little 5) (net_t.from_net 2 .little 5) =
        true
    ∧ hashNet id (net_t.from_net 2 .little 5) =
        hashNet id (net_t.from_net 2 .little 5) :=
  ⟨by decide,
    (hashNet_consistent_with_eq 2 .little id).2
      (net_t.from_net 2 .little 5) (net_t.from_net 2 .little 5) (by decide)⟩

/-- C7: when the buffer allocator reports exhaustion,
`ethernet_send_frame` propagates the failure: the result is `none` (the
error is observable by the caller), so no egress descriptor is submitted
and no buffer bytes are written. -/
theorem ethernet_send_frame_alloc_failure (e : ByteOrder)
    (env : mpipe_env_t) (payload_size : Nat) (dst : List Nat)
    (ether_type : Nat) (payload_writer : buffer_cursor_t → buffer_cursor_t)
    (h : env.alloc (ether_header_size + payload_size) = none) :
    ethernet_send_frame e env payload_size dst ether_type payload_writer =
      none := by
  simp only [ethernet_send_frame, mpipe_alloc_buffer, h]

/-- Witness for `ethernet_send_frame_alloc_failure`: an environment whose
allocator is exhausted. -/
theorem ethernet_send_frame_alloc_failure_witness :
    (mpipe_env_t.mk [0x11, 0x22, 0x33, 0x44, 0x55, 0x66]
        (fun _ => none) []).alloc (ether_header_size + 1) = none
    ∧ ethernet_send_frame .little
        (mpipe_env_t.mk [0x11, 0x22, 0x33, 0x44, 0x55, 0x66]
          (fun _ => none) [])
        1 BROADCAST_ETHER_ADDR 8 id = none :=
  ⟨rfl,
    ethernet_send_frame_alloc_failure .little
      (mpipe_env_t.mk [0x11, 0x22, 0x33, 0x44, 0x55, 0x66]
        (fun _ => none) [])
      1 BROADCAST_ETHER_ADDR 8 id rfl⟩

/-- The buffer contents produced by writing the Ethernet header and then
the payload through the cursor, starting from a fresh buffer of exactly
`14 + payload.length` bytes: header fields followed by the payload,
nothing else. -/
theorem ethernet_frame_buffer_contents (e : ByteOrder) (env : mpipe_env_t)
    (dst buf payload : List Nat) (ether_type : Nat)
    (hdst : dst.length = 6) (hsrc : env.link_addr.length = 6)
    (hbuf : buf.length = ether_header_size + payload.length) :
    (payloadBytesWriter payload
        (_ethernet_write_header e env ⟨buf, 0⟩ dst ether_type)).buf =
      dst ++ env.link_addr ++ uint16MemBytes e ether_type ++ payload := by
  have hu16 : (uint16MemBytes e ether_type).length = 2 := by
    cases e <;> simp [uint16MemBytes, length_toBytesLE]
  have hdst6 : dst.take 6 = dst := by
    rw [← hdst]
    exact List.take_length dst
  have hsrc6 : env.link_addr.take 6 = env.link_addr := by
    rw [← hsrc]
    exact List.take_length _
  have hhdr : (dst ++ env.link_addr ++ uint16MemBytes e ether_type).length
      = 14 := by
    simp [List.length_append, hdst, hsrc, hu16]
  have h1 : _ethernet_write_header e env ⟨buf, 0⟩ dst ether_type =
      ⟨(dst ++ env.link_addr ++ uint16MemBytes e ether_type) ++
        buf.drop 14, 14⟩ := by
    simp only [_ethernet_write_header, buffer_cursor_t.write_with,
      ether_header_size, List.take_zero, List.drop_zero, List.nil_append,
      Nat.zero_add, hdst6, hsrc6, List.append_assoc]
  rw [h1]
  simp only [payloadBytesWriter, buffer_cursor_t.write_with]
  have h2 : ((dst ++ env.link_addr ++ uint16MemBytes e ether_type) ++
      buf.drop 14).take 14 =
      dst ++ env.link_addr ++ uint16MemBytes e ether_type :=
    List.take_left' hhdr
  have h3 : ((dst ++ env.link_addr ++ uint16MemBytes e ether_type) ++
      buf.drop 14).drop (14 + payload.length) = [] := by
    apply List.drop_of_length_le
    rw [List.length_append, hhdr, List.length_drop, hbuf]
    simp [ether_header_size]
  rw [h2, h3, List.append_nil, List.append_assoc, List.append_assoc]

/-- C1: for every payload, destination address and (network-order)
ethertype, `ethernet_send_frame` submits to the egress queue one
descriptor whose buffer is exactly the 6 destination bytes, the 6
source-address bytes from the link context, the 2 in-memory bytes of the
ethertype value as passed, followed by the payload bytes unchanged — a
total of `14 + payload.length` bytes, which is also the descriptor's
transfer size. -/
theorem ethernet_send_frame_wire_format (e : ByteOrder) (env : mpipe_env_t)
    (dst buf payload : List Nat) (ether_type : Nat)
    (hdst : dst.length = 6) (hsrc : env.link_addr.length = 6)
    (halloc : env.alloc (ether_header_size + payload.length) = some buf)
    (hbuf : buf.length = ether_header_size + payload.length) :
    ethernet_send_frame e env payload.length dst ether_type
        (payloadBytesWriter payload) =
      some { env with equeue := env.equeue ++
        [{ bound := 1, hwb := 1,
           xfer_size := ether_header_size + payload.length,
           buf := dst ++ env.link_addr ++ uint16MemBytes e ether_type ++
             payload }] }
    ∧ (dst ++ env.link_addr ++ uint16MemBytes e ether_type ++
        payload).length = 14 + payload.length := by
  have hu16 : (uint16MemBytes e ether_type).length = 2 := by
    cases e <;> simp [uint16MemBytes, length_toBytesLE]
  constructor
  · simp only [ethernet_send_frame, mpipe_alloc_buffer, halloc]
    rw [ethernet_frame_buffer_contents e env dst buf payload ether_type
      hdst hsrc hbuf]
  · simp only [List.length_append, hdst, hsrc, hu16]

/-- Witness for `ethernet_send_frame_wire_format`: destination
`AA:BB:CC:DD:EE:FF`, source `11:22:33:44:55:66`, ethertype `0x0008`
(that is, `0x0800` in network order on a little-endian host), one-byte
payload `[0x45]`. -/
theorem ethernet_send_frame_wire_format_witness :
    ([0xAA, 0xBB, 0xCC, 0xDD, 0xEE, 0xFF] : List Nat).length = 6
    ∧ (mpipe_env_t.mk [0x11, 0x22, 0x33, 0x44, 0x55, 0x66]
        (fun size => some (List.replicate size 0)) []).link_addr.length = 6
    ∧ (mpipe_env_t.mk [0x11, 0x22, 0x33, 0x44, 0x55, 0x66]
        (fun size => some (List.replicate size 0)) []).alloc
        (ether_header_size + ([0x45] : List Nat).length) =
        some (List.replicate 15 0)
    ∧ (List.replicate 15 0).length =
        ether_header_size + ([0x45] : List Nat).length
    ∧ (ethernet_send_frame .little
        (mpipe_env_t.mk [0x11, 0x22, 0x33, 0x44, 0x55, 0x66]
          (fun size => some (List.replicate size 0)) [])
        ([0x45] : List Nat).length [0xAA, 0xBB, 0xCC, 0xDD, 0xEE, 0xFF]
        0x0008 (payloadBytesWriter [0x45]) =
      some { mpipe_env_t.mk [0x11, 0x22, 0x33, 0x44, 0x55, 0x66]
          (fun size => some (List.replicate size 0)) [] with
        equeue := [] ++
          [{ bound := 1, hwb := 1,
             xfer_size := ether_header_size + ([0x45] : List Nat).length,
             buf := [0xAA, 0xBB, 0xCC, 0xDD, 0xEE, 0xFF] ++
               [0x11, 0x22, 0x33, 0x44, 0x55, 0x66] ++
               uint16MemBytes .little 0x0008 ++ [0x45] }] }
      ∧ ([0xAA, 0xBB, 0xCC, 0xDD, 0xEE, 0xFF] ++
          [0x11, 0x22, 0x33, 0x44, 0x55, 0x66] ++
          uint16MemBytes .little 0x0008 ++ ([0x45] : List Nat)).length =
        14 + ([0x45] : List Nat).length) :=
  ⟨rfl, rfl, rfl, rfl,
    ethernet_send_frame_wire_format .little
      (mpipe_env_t.mk [0x11, 0x22, 0x33, 0x44, 0x55, 0x66]
        (fun size => some (List.replicate size 0)) [])
      [0xAA, 0xBB, 0xCC, 0xDD, 0xEE, 0xFF] (List.replicate 15 0) [0x45]
      0x0008 rfl rfl rfl rfl⟩

theorem offset_write_with (c : buffer_cursor_t) (size : Nat)
    (writer : List Nat → List Nat) :
    (c.write_with size writer).offset = c.offset + size :=
  rfl

theorem offset_writeSeq (c : buffer_cursor_t)
    (ws : List (Nat × (List Nat → List Nat))) :
    (buffer_cursor_t.writeSeq c ws).offset =
      c.offset + (ws.map Prod.fst).sum := by
  induction ws generalizing c with
  | nil => simp [buffer_cursor_t.writeSeq]
  | cons w ws ih =>
    show (buffer_cursor_t.writeSeq (c.write_with w.1 w.2) ws).offset = _
    rw [ih, offset_write_with, List.map_cons, List.sum_cons, Nat.add_assoc]

theorem sum_take_succ (l : List Nat) (k : Nat) (hk : k < l.length) :
    (l.take (k + 1)).sum = (l.take k).sum + l.getD k 0 := by
  rw [List.take_add, List.sum_append, List.drop_eq_getElem_cons hk,
    List.take_cons (by omega), List.take_zero, List.sum_cons, List.sum_nil,
    List.getD_eq_getElem?_getD, List.getElem?_eq_getElem hk]
  rfl

theorem sum_take_mono (l : List Nat) (a b : Nat) (hab : a ≤ b) :
    (l.take a).sum ≤ (l.take b).sum := by
  have : b = a + (b - a) := by omega
  rw [this, List.take_add, List.sum_append]
  omega

/-- C8: after `N` sequential `write_with` calls reserving sizes
`s1..sN` on a cursor starting at offset `0` with the sizes' sum within
capacity, (1) the final offset is `s1 + ... + sN`; (2) the offset after
the first `k` calls is the sum of the first `k` sizes, so each call
advances the offset by exactly its reserved size; (3) the region of call
`i` (starting at the offset before call `i`, of length `s_i`) ends no
later than the region of any later call `j` begins: the reserved regions
are pairwise disjoint and in increasing address order. -/
theorem writeSeq_cursor_monotonicity (c : buffer_cursor_t)
    (ws : List (Nat × (List Nat → List Nat)))
    (h0 : c.offset = 0)
    (hcap : (ws.map Prod.fst).sum ≤ c.buf.length) :
    (buffer_cursor_t.writeSeq c ws).offset = (ws.map Prod.fst).sum
    ∧ (∀ k, k ≤ ws.length →
        (buffer_cursor_t.writeSeq c (ws.take k)).offset =
          ((ws.map Prod.fst).take k).sum)
    ∧ (∀ k, k < ws.length →
        (buffer_cursor_t.writeSeq c (ws.take (k + 1))).offset =
          (buffer_cursor_t.writeSeq c (ws.take k)).offset +
            (ws.map Prod.fst).getD k 0)
    ∧ (∀ i j, i < j → j < ws.length →
        (buffer_cursor_t.writeSeq c (ws.take i)).offset +
            (ws.map Prod.fst).getD i 0 ≤
          (buffer_cursor_t.writeSeq c (ws.take j)).offset) := by
  have hpre : ∀ k, (buffer_cursor_t.writeSeq c (ws.take k)).offset =
      ((ws.map Prod.fst).take k).sum := by
    intro k
    rw [offset_writeSeq, h0, Nat.zero_add, List.map_take]
  have hlen : (ws.map Prod.fst).length = ws.length := List.length_map ws _
  refine ⟨?_, fun k _ => hpre k, fun k hk => ?_, fun i j hij hj => ?_⟩
  · rw [offset_writeSeq, h0, Nat.zero_add]
  · rw [hpre k, hpre (k + 1)]
    exact sum_take_succ (ws.map Prod.fst) k (by omega)
  · rw [hpre i, hpre j,
      ← sum_take_succ (ws.map Prod.fst) i (by omega)]
    exact sum_take_mono (ws.map Prod.fst) (i + 1) j (by omega)

/-- Witness for `writeSeq_cursor_monotonicity`: two writes of sizes `2`
and `3` into a five-byte buffer. -/
theorem writeSeq_cursor_monotonicity_witness :
    (buffer_cursor_t.mk (List.replicate 5 0) 0).offset = 0
    ∧ (([((2 : Nat), fun (_ : List Nat) => ([1, 1] : List Nat)),
        ((3 : Nat), fun (_ : List Nat) => ([2, 2, 2] : List Nat))].map Prod.fst).sum ≤
        (buffer_cursor_t.mk (List.replicate 5 0) 0).buf.length)
    ∧ (buffer_cursor_t.writeSeq (buffer_cursor_t.mk (List.replicate 5 0) 0)
        [((2 : Nat), fun (_ : List Nat) => ([1, 1] : List Nat)),
          ((3 : Nat), fun (_ : List Nat) => ([2, 2, 2] : List Nat))]).offset =
      (([((2 : Nat), fun (_ : List Nat) => ([1, 1] : List Nat)),
        ((3 : Nat), fun (_ : List Nat) => ([2, 2, 2] : List Nat))].map Prod.fst).sum) := by
  refine ⟨rfl, by decide, ?_⟩
  exact (writeSeq_cursor_monotonicity
    (buffer_cursor_t.mk (List.replicate 5 0) 0)
    [((2 : Nat), fun (_ : List Nat) => ([1, 1] : List Nat)),
      ((3 : Nat), fun (_ : List Nat) => ([2, 2, 2] : List Nat))]
    rfl (by decide)).1

/-- C10: `BROADCAST_ETHER_ADDR` is exactly the six bytes
`FF FF FF FF FF FF` (it is a `def`, hence read-only: no operation of the
embedding can modify it, matching the C++ `static const`). -/
theorem broadcast_ether_addr_bytes :
    BROADCAST_ETHER_ADDR = List.replicate 6 0xFF
    ∧ BROADCAST_ETHER_ADDR.length = 6 := by
  constructor <;> rfl

end tcp_mpipe
